import Mathlib

/-!
Verification of the Tesseract OCR batch-processing script (src/index.ts).

Strings are modelled as lists of characters (`Str`).  JavaScript's
`String.prototype.toLowerCase` is modelled by per-character lowering,
`String.prototype.includes` by an executable substring scan, and the JS
`Map` (insertion order, in-place update on repeated `set`) by an
association list with `mapSet` / `mapGet`.  The orchestrator
`processImages` is embedded with the OCR engine as an opaque fallible
function and the directory listing as an `Except`-valued input; console
output is modelled by a list of structured `LogEntry` values.
-/

set_option autoImplicit false

abbrev Str := List Char

/-- Model of JS `toLowerCase` restricted to per-character case folding. -/
def toLowerStr (s : Str) : Str := s.map Char.toLower

/-- Helper for `includes`: does `sub` occur at the very start of `s`? -/
def startsWith : Str → Str → Bool
  | _, [] => true
  | [], _ :: _ => false
  | c :: cs, d :: ds => c == d && startsWith cs ds

/-- Model of JS `s.includes(sub)`: contiguous substring scan. -/
def includes : Str → Str → Bool
  | [], sub => startsWith [] sub
  | c :: cs, sub => startsWith (c :: cs) sub || includes cs sub

/-- Model of JS `Map.prototype.set`: update the existing entry in place,
otherwise append the new entry at the end (insertion order). -/
def mapSet (m : List (Str × Bool)) (k : Str) (v : Bool) : List (Str × Bool) :=
  match m with
  | [] => [(k, v)]
  | (k', v') :: rest => if k' = k then (k', v) :: rest else (k', v') :: mapSet rest k v

/-- Model of JS `Map.prototype.get` (as an `Option`; the source applies
`|| false` where a default is needed). -/
def mapGet (m : List (Str × Bool)) (k : Str) : Option Bool :=
  match m with
  | [] => none
  | (k', v) :: rest => if k' = k then some v else mapGet rest k

/-- Keys of the modelled map, in insertion order. -/
def keysOf (m : List (Str × Bool)) : List Str := m.map Prod.fst

/-- src/index.ts `checkKeywords`, generalised over the keyword list that the
source keeps in the global `TARGET_KEYWORDS`: lower-case the text once, then
for each keyword record whether its lower-cased form occurs in the text. -/
def checkKeywords (TARGET_KEYWORDS : List Str) (text : Str) : List (Str × Bool) :=
  let lowerText := toLowerStr text
  TARGET_KEYWORDS.foldl
    (fun statusMap keyword => mapSet statusMap keyword (includes lowerText (toLowerStr keyword)))
    []

/-- First-occurrence deduplication relative to a list of already-seen keys. -/
def dedupFirstAux (seen : List Str) : List Str → List Str
  | [] => []
  | k :: ks => if k ∈ seen then dedupFirstAux seen ks else k :: dedupFirstAux (k :: seen) ks

/-- First-occurrence deduplication, used to state what "the deduplicated
keyword list" means in the specification. -/
def dedupFirst (l : List Str) : List Str := dedupFirstAux [] l

example : dedupFirst ["a".data, "b".data, "a".data] = ["a".data, "b".data] := by decide

example : "Case".data = ['C', 'a', 's', 'e'] := rfl
example : includes "hello world".data "lo w".data = true := rfl
example : includes "hello".data "low".data = false := rfl
example : checkKeywords ["Sel".data] "xSELy".data = [("Sel".data, true)] := by decide

/-- src/index.ts `ImageResult`: a file name paired with its keyword status map. -/
structure ImageResult where
  fileName : Str
  keywordStatus : List (Str × Bool)
  deriving DecidableEq

/-- The `status ? "found" : "not found"` cell text of `convertToCsv`. -/
def statusText (b : Bool) : Str := if b then "found".data else "not found".data

/-- One data row of `convertToCsv`: the file name, then one cell per keyword in
keyword order, defaulting a missing map entry to `not found` via `|| false`. -/
def csvRow (TARGET_KEYWORDS : List Str) (r : ImageResult) : Str :=
  TARGET_KEYWORDS.foldl
    (fun row keyword => row ++ [','] ++ statusText ((mapGet r.keywordStatus keyword).getD false))
    r.fileName

/-- Model of JS `Array.prototype.join(sep)`. -/
def joinSep (sep : Str) : List Str → Str
  | [] => []
  | [x] => x
  | x :: y :: xs => x ++ sep ++ joinSep sep (y :: xs)

/-- The header row of the CSV without its terminating newline: the template
literal `Case,<searchHeaders>` of src/index.ts (note the comma is present even
when the keyword list is empty). -/
def headerLine (TARGET_KEYWORDS : List Str) : Str :=
  "Case".data ++ [','] ++ joinSep [','] TARGET_KEYWORDS

/-- src/index.ts `convertToCsv`, generalised over `TARGET_KEYWORDS`:
`header` is `Case,<joined keywords>\n` and the data rows are joined with
single newlines, with no newline after the last row. -/
def convertToCsv (TARGET_KEYWORDS : List Str) (results : List ImageResult) : Str :=
  let header := headerLine TARGET_KEYWORDS ++ ['\n']
  let rows := results.map (csvRow TARGET_KEYWORDS)
  header ++ joinSep ['\n'] rows

/-- Split a character list at every occurrence of `c` (JS `split` semantics:
always at least one piece, empty pieces kept). -/
def splitOnChar (c : Char) : Str → List Str
  | [] => [[]]
  | d :: s =>
    if d = c then [] :: splitOnChar c s
    else
      match splitOnChar c s with
      | [] => [[d]]
      | t :: ts => (d :: t) :: ts

/-- The lines of a text: split at newlines, where a single trailing newline
terminates the last line rather than opening an empty one. -/
def linesOf (s : Str) : List Str :=
  let parts := splitOnChar '\n' s
  if parts.getLast? = some [] then parts.dropLast else parts

/-- Everything before the first newline. -/
def firstLine (s : Str) : Str := s.takeWhile (fun c => c != '\n')

/-- Number of comma-separated fields of a single line. -/
def fieldCount (line : Str) : Nat := line.count ',' + 1

example : linesOf "ab\ncd".data = ["ab".data, "cd".data] := by decide
example : linesOf "ab\n".data = ["ab".data] := by decide
example : convertToCsv ["K".data] [⟨"f.png".data, [("K".data, true)]⟩]
    = "Case,K\nf.png,found".data := by decide
example : convertToCsv [] [] = "Case,\n".data := by decide

/-- The suffix of a name starting at its last dot, when the name has a dot. -/
def extAfterLastDot : Str → Option Str
  | [] => none
  | c :: cs =>
    match extAfterLastDot cs with
    | some e => some e
    | none => if c = '.' then some (c :: cs) else none

/-- Model of Node `path.extname` on a plain directory-entry name (no path
separators): the part from the last dot to the end, except that a dot that is
the first character starts no extension, and `..` has no extension. -/
def extname (name : Str) : Str :=
  if name = ['.', '.'] then []
  else
    match name with
    | [] => []
    | _ :: rest =>
      match extAfterLastDot rest with
      | some e => e
      | none => []

/-- src/index.ts `SUPPORTED_EXTENSIONS`. -/
def SUPPORTED_EXTENSIONS : List Str :=
  [".jpg".data, ".jpeg".data, ".png".data, ".tiff".data, ".tif".data]

/-- src/index.ts `isSupportedImage`: lower-cased extension is supported. -/
def isSupportedImage (filename : Str) : Bool :=
  SUPPORTED_EXTENSIONS.contains (toLowerStr (extname filename))

example : isSupportedImage "photo.JPG".data = true := by decide
example : isSupportedImage "notes.txt".data = false := by decide
example : isSupportedImage "archive.tar.png".data = true := by decide
example : isSupportedImage ".png".data = false := by decide

/-- Console output of the run, as structured entries. -/
inductive LogEntry where
  | starting
  | noImages
  | foundImages (n : Nat)
  | processed (file : Str) (foundCount : Nat)
  | errorProcessing (file : Str) (msg : Str)
  | summary (numImages totalPossibleChecks totalSuccessfulMatches : Nat) (avg : ℚ)
  | fatal (msg : Str)
  deriving DecidableEq

/-- Count of `true` values of a status map:
`Array.from(keywordStatus.values()).filter(v => v).length`. -/
def foundCount (statusMap : List (Str × Bool)) : Nat :=
  ((statusMap.map Prod.snd).filter (fun v => v)).length

/-- Accumulator of the per-file loop of `processImages`. -/
structure LoopState where
  results : List ImageResult
  totalSuccessfulMatches : Nat
  log : List LogEntry
  deriving DecidableEq

/-- One iteration of the per-file loop of `processImages`: on OCR success,
append an ImageResult and tally the matches; on failure, only log the file
name and the error message. -/
def stepFile (TARGET_KEYWORDS : List Str) (recognize : Str → Except Str Str)
    (st : LoopState) (file : Str) : LoopState :=
  match recognize file with
  | Except.ok text =>
    let keywordStatus := checkKeywords TARGET_KEYWORDS text
    let fc := foundCount keywordStatus
    ⟨st.results ++ [⟨file, keywordStatus⟩],
     st.totalSuccessfulMatches + fc,
     st.log ++ [LogEntry.processed file fc]⟩
  | Except.error e =>
    ⟨st.results, st.totalSuccessfulMatches, st.log ++ [LogEntry.errorProcessing file e]⟩

/-- The per-file loop of `processImages` over the qualifying image files. -/
def runLoop (TARGET_KEYWORDS : List Str) (recognize : Str → Except Str Str)
    (imageFiles : List Str) : LoopState :=
  imageFiles.foldl (stepFile TARGET_KEYWORDS recognize) ⟨[], 0, []⟩

/-- Observable outcome of one run of `processImages`: the console log, the
content written to the output file (`none` when no write happened), the
collected results and the summary numbers. -/
structure RunReport where
  log : List LogEntry
  writtenCsv : Option Str
  results : List ImageResult
  numImages : Nat
  totalPossibleChecks : Nat
  totalSuccessfulMatches : Nat
  averageMatchPercentage : ℚ
  fatalError : Option Str

/-- src/index.ts `processImages`, with the OCR engine as an opaque fallible
function `recognize`, the directory listing as an `Except`-valued input
(`readdirSync` may throw), and JS number arithmetic for the average taken over
the rationals.  The output-file write itself is modelled as succeeding. -/
def processImages (TARGET_KEYWORDS : List Str) (recognize : Str → Except Str Str)
    (readdir : Except Str (List Str)) : RunReport :=
  match readdir with
  | Except.error e =>
    ⟨[LogEntry.starting, LogEntry.fatal e], none, [], 0, 0, 0, 0, some e⟩
  | Except.ok files =>
    let imageFiles := files.filter (fun f => isSupportedImage f)
    if imageFiles.length = 0 then
      ⟨[LogEntry.starting, LogEntry.noImages], none, [], 0, 0, 0, 0, none⟩
    else
      let numImages := imageFiles.length
      let numKeywords := TARGET_KEYWORDS.length
      let totalPossibleChecks := numImages * numKeywords
      let st := runLoop TARGET_KEYWORDS recognize imageFiles
      let averageMatchPercentage : ℚ :=
        if 0 < totalPossibleChecks
        then ((st.totalSuccessfulMatches : ℚ) / (totalPossibleChecks : ℚ)) * 100
        else 0
      let csvData := convertToCsv TARGET_KEYWORDS st.results
      ⟨[LogEntry.starting, LogEntry.foundImages numImages] ++ st.log
         ++ [LogEntry.summary numImages totalPossibleChecks st.totalSuccessfulMatches
               averageMatchPercentage],
       some csvData, st.results, numImages, totalPossibleChecks,
       st.totalSuccessfulMatches, averageMatchPercentage, none⟩

example :
    (processImages ["Selamat".data]
      (fun f => if f = "a.jpg".data then Except.ok "selamat pagi".data else Except.error "bad".data)
      (Except.ok ["a.jpg".data, "b.png".data, "c.txt".data])).results
    = [⟨"a.jpg".data, [("Selamat".data, true)]⟩] := by decide

/-- What one file contributes to `allImageResults`: an `ImageResult` exactly
when the OCR adapter succeeds on it. -/
def perFileResult (kws : List Str) (recognize : Str → Except Str Str) (file : Str) :
    Option ImageResult :=
  match recognize file with
  | Except.ok text => some ⟨file, checkKeywords kws text⟩
  | Except.error _ => none

/-- What one file contributes to the console log inside the loop. -/
def perFileLog (kws : List Str) (recognize : Str → Except Str Str) (file : Str) :
    LogEntry :=
  match recognize file with
  | Except.ok text => LogEntry.processed file (foundCount (checkKeywords kws text))
  | Except.error e => LogEntry.errorProcessing file e

theorem startsWith_iff : ∀ s sub : Str, startsWith s sub = true ↔ ∃ t, s = sub ++ t
  | _, [] => by simp [startsWith]
  | [], _ :: _ => by simp [startsWith]
  | c :: cs, d :: ds => by
    simp only [startsWith, Bool.and_eq_true, beq_iff_eq, startsWith_iff cs ds,
      List.cons_append, List.cons.injEq]
    constructor
    · rintro ⟨hc, t, ht⟩
      exact ⟨t, hc, ht⟩
    · rintro ⟨t, hc, ht⟩
      exact ⟨hc, t, ht⟩

theorem includes_iff : ∀ s sub : Str, includes s sub = true ↔ ∃ pre post, s = pre ++ sub ++ post
  | [], sub => by
    simp only [includes, startsWith_iff]
    constructor
    · rintro ⟨t, ht⟩
      exact ⟨[], t, ht⟩
    · rintro ⟨pre, post, h⟩
      rcases List.append_eq_nil.mp h.symm with ⟨h2, -⟩
      rcases List.append_eq_nil.mp h2 with ⟨-, hsub⟩
      exact ⟨[], by simp [hsub]⟩
  | c :: cs, sub => by
    simp only [includes, Bool.or_eq_true, startsWith_iff, includes_iff cs sub]
    constructor
    · rintro (⟨t, ht⟩ | ⟨pre, post, h⟩)
      · exact ⟨[], t, by simpa using ht⟩
      · exact ⟨c :: pre, post, by simp [h]⟩
    · rintro ⟨pre, post, h⟩
      match pre, h with
      | [], h => exact Or.inl ⟨post, by simpa using h⟩
      | p :: pre', h =>
        rw [List.cons_append, List.cons_append] at h
        injection h with h1 h2
        exact Or.inr ⟨pre', post, h2⟩

theorem includes_nil_right (s : Str) : includes s [] = true :=
  (includes_iff s []).mpr ⟨[], s, by simp⟩

theorem mapGet_mapSet_self (m : List (Str × Bool)) (k : Str) (v : Bool) :
    mapGet (mapSet m k v) k = some v := by
  induction m with
  | nil => simp [mapSet, mapGet]
  | cons e rest ih =>
    obtain ⟨k', v'⟩ := e
    by_cases h : k' = k
    · simp [mapSet, mapGet, h]
    · simp [mapSet, mapGet, h, ih]

theorem mapGet_mapSet_other (m : List (Str × Bool)) (k : Str) (v : Bool) (K : Str)
    (hne : K ≠ k) : mapGet (mapSet m k v) K = mapGet m K := by
  have hkK : ¬k = K := fun hh => hne hh.symm
  induction m with
  | nil => simp [mapSet, mapGet, hkK]
  | cons e rest ih =>
    obtain ⟨k', v'⟩ := e
    by_cases h : k' = k
    · subst h
      simp [mapSet, mapGet, hkK]
    · simp [mapSet, mapGet, h, ih]

@[simp] theorem keysOf_nil : keysOf [] = [] := rfl

@[simp] theorem keysOf_cons (k : Str) (v : Bool) (rest : List (Str × Bool)) :
    keysOf ((k, v) :: rest) = k :: keysOf rest := rfl

theorem keysOf_mapSet (m : List (Str × Bool)) (k : Str) (v : Bool) :
    keysOf (mapSet m k v) = if k ∈ keysOf m then keysOf m else keysOf m ++ [k] := by
  induction m with
  | nil => simp [mapSet]
  | cons e rest ih =>
    obtain ⟨k', v'⟩ := e
    by_cases h : k' = k
    · subst h
      simp [mapSet]
    · have hne : ¬k = k' := fun hh => h hh.symm
      have hstep : mapSet ((k', v') :: rest) k v = (k', v') :: mapSet rest k v := by
        simp [mapSet, h]
      rw [hstep, keysOf_cons, ih, keysOf_cons]
      by_cases h2 : k ∈ keysOf rest
      · rw [if_pos h2, if_pos (List.mem_cons_of_mem _ h2)]
      · rw [if_neg h2, if_neg (by simp [hne, h2]), List.cons_append]

theorem dedupFirstAux_congr (s1 s2 : List Str) (hs : ∀ x, x ∈ s1 ↔ x ∈ s2) :
    ∀ ks : List Str, dedupFirstAux s1 ks = dedupFirstAux s2 ks
  | [] => rfl
  | k :: ks => by
    by_cases hk : k ∈ s1
    · rw [dedupFirstAux, dedupFirstAux, if_pos hk, if_pos ((hs k).mp hk)]
      exact dedupFirstAux_congr s1 s2 hs ks
    · rw [dedupFirstAux, dedupFirstAux, if_neg hk, if_neg (fun hh => hk ((hs k).mpr hh))]
      have hs' : ∀ x, x ∈ k :: s1 ↔ x ∈ k :: s2 := by
        intro x
        simp [hs x]
      rw [dedupFirstAux_congr (k :: s1) (k :: s2) hs' ks]

theorem keysOf_foldl_mapSet (f : Str → Bool) :
    ∀ (kws : List Str) (m : List (Str × Bool)),
      keysOf (kws.foldl (fun acc kw => mapSet acc kw (f kw)) m)
        = keysOf m ++ dedupFirstAux (keysOf m) kws
  | [], m => by simp [dedupFirstAux]
  | k :: ks, m => by
    rw [List.foldl_cons, keysOf_foldl_mapSet f ks (mapSet m k (f k))]
    by_cases hmem : k ∈ keysOf m
    · rw [keysOf_mapSet, if_pos hmem, dedupFirstAux, if_pos hmem]
    · rw [keysOf_mapSet, if_neg hmem, dedupFirstAux, if_neg hmem]
      have hseen : ∀ x, x ∈ keysOf m ++ [k] ↔ x ∈ k :: keysOf m := by
        intro x
        simp [List.mem_append, or_comm]
      rw [dedupFirstAux_congr _ _ hseen ks]
      simp

theorem mapGet_foldl_mapSet (f : Str → Bool) :
    ∀ (kws : List Str) (m : List (Str × Bool)) (K : Str),
      (K ∈ kws ∨ mapGet m K = some (f K)) →
      mapGet (kws.foldl (fun acc kw => mapSet acc kw (f kw)) m) K = some (f K)
  | [], _, K, h => by
    rcases h with h | h
    · exact absurd h (List.not_mem_nil K)
    · simpa using h
  | k :: ks, m, K, h => by
    rw [List.foldl_cons]
    apply mapGet_foldl_mapSet f ks (mapSet m k (f k)) K
    by_cases hKk : K = k
    · subst hKk
      exact Or.inr (mapGet_mapSet_self m K (f K))
    · rcases h with h | h
      · rcases List.mem_cons.mp h with h1 | h1
        · exact absurd h1 hKk
        · exact Or.inl h1
      · exact Or.inr ((mapGet_mapSet_other m k (f k) K hKk).trans h)

theorem keysOf_checkKeywords (kws : List Str) (text : Str) :
    keysOf (checkKeywords kws text) = dedupFirst kws := by
  have h := keysOf_foldl_mapSet (fun kw => includes (toLowerStr text) (toLowerStr kw)) kws []
  simpa [checkKeywords, dedupFirst] using h

theorem mapGet_checkKeywords (kws : List Str) (text K : Str) (h : K ∈ kws) :
    mapGet (checkKeywords kws text) K
      = some (includes (toLowerStr text) (toLowerStr K)) :=
  mapGet_foldl_mapSet _ kws [] K (Or.inl h)

theorem foundCount_cons (k : Str) (v : Bool) (rest : List (Str × Bool)) :
    foundCount ((k, v) :: rest) = (if v then 1 else 0) + foundCount rest := by
  by_cases h : v <;> simp [foundCount, h, Nat.add_comm]

theorem foundCount_pos_of_mapGet_true (m : List (Str × Bool)) (K : Str)
    (h : mapGet m K = some true) : 1 ≤ foundCount m := by
  induction m with
  | nil => simp [mapGet] at h
  | cons e rest ih =>
    obtain ⟨k', v'⟩ := e
    rw [mapGet] at h
    by_cases hk : k' = K
    · rw [if_pos hk] at h
      injection h with h
      rw [foundCount_cons, ← h]
      simp
    · rw [if_neg hk] at h
      have h1 := ih h
      rw [foundCount_cons]
      omega

theorem foldl_stepFile_results (kws : List Str) (recognize : Str → Except Str Str) :
    ∀ (files : List Str) (st : LoopState),
      (files.foldl (stepFile kws recognize) st).results
        = st.results ++ files.filterMap (perFileResult kws recognize)
  | [], st => by simp
  | f :: fs, st => by
    rw [List.foldl_cons, foldl_stepFile_results kws recognize fs]
    cases hrec : recognize f with
    | ok text =>
      simp [stepFile, hrec, List.filterMap_cons, perFileResult]
    | error e =>
      simp [stepFile, hrec, List.filterMap_cons, perFileResult]

theorem foldl_stepFile_log (kws : List Str) (recognize : Str → Except Str Str) :
    ∀ (files : List Str) (st : LoopState),
      (files.foldl (stepFile kws recognize) st).log
        = st.log ++ files.map (perFileLog kws recognize)
  | [], st => by simp
  | f :: fs, st => by
    rw [List.foldl_cons, foldl_stepFile_log kws recognize fs]
    cases hrec : recognize f with
    | ok text => simp [stepFile, hrec, perFileLog]
    | error e => simp [stepFile, hrec, perFileLog]

theorem foldl_stepFile_matches (kws : List Str) (recognize : Str → Except Str Str) :
    ∀ (files : List Str) (st : LoopState),
      (files.foldl (stepFile kws recognize) st).totalSuccessfulMatches
        = st.totalSuccessfulMatches
          + ((files.filterMap (perFileResult kws recognize)).map
              (fun r => foundCount r.keywordStatus)).sum
  | [], st => by simp
  | f :: fs, st => by
    rw [List.foldl_cons, foldl_stepFile_matches kws recognize fs]
    cases hrec : recognize f with
    | ok text =>
      simp [stepFile, hrec, List.filterMap_cons, perFileResult, Nat.add_assoc]
    | error e =>
      simp [stepFile, hrec, List.filterMap_cons, perFileResult]

theorem perFileResult_keywordStatus (kws : List Str) (recognize : Str → Except Str Str)
    (file : Str) (r : ImageResult) (h : perFileResult kws recognize file = some r) :
    ∃ text, r.keywordStatus = checkKeywords kws text := by
  unfold perFileResult at h
  cases hrec : recognize file with
  | ok text =>
    rw [hrec] at h
    injection h with h
    exact ⟨text, by rw [← h]⟩
  | error e =>
    rw [hrec] at h
    cases h

theorem length_le_sum_of_one_le (l : List Nat) (h : ∀ x ∈ l, 1 ≤ x) :
    l.length ≤ l.sum := by
  induction l with
  | nil => simp
  | cons a l ih =>
    have h1 := h a (List.mem_cons_self a l)
    have h2 := ih (fun x hx => h x (List.mem_cons_of_mem a hx))
    simp only [List.length_cons, List.sum_cons]
    omega

/-- C2: for every text T and keyword K, the matcher maps K to true iff the
lower-cased K occurs as a contiguous substring of the lower-cased T. -/
theorem checkKeywords_singleton_true_iff (T K : Str) :
    mapGet (checkKeywords [K] T) K = some true
      ↔ ∃ pre post, toLowerStr T = pre ++ toLowerStr K ++ post := by
  rw [mapGet_checkKeywords [K] T K (List.mem_singleton.mpr rfl)]
  simp only [Option.some.injEq]
  exact includes_iff (toLowerStr T) (toLowerStr K)

theorem checkKeywords_singleton_true_iff_witness :
    mapGet (checkKeywords ["Sel".data] "xSELy".data) "Sel".data = some true :=
  (checkKeywords_singleton_true_iff "xSELy".data "Sel".data).mpr
    ⟨"x".data, "y".data, by decide⟩

/-- C8: for every input text, including the empty string, the key list of the
map returned by the matcher is exactly the keyword list deduplicated to first
occurrences, in configured order, a duplicate keyword collapsing to the single
entry holding its (last-written) value. -/
theorem checkKeywords_keyset (kws : List Str) (T : Str) :
    keysOf (checkKeywords kws T) = dedupFirst kws
      ∧ ∀ K ∈ kws, mapGet (checkKeywords kws T) K
          = some (includes (toLowerStr T) (toLowerStr K)) :=
  ⟨keysOf_checkKeywords kws T, fun K hK => mapGet_checkKeywords kws T K hK⟩

theorem checkKeywords_keyset_witness :
    keysOf (checkKeywords ["a".data, "b".data, "a".data] "B".data)
        = ["a".data, "b".data]
      ∧ mapGet (checkKeywords ["a".data, "b".data, "a".data] "B".data) "a".data
        = some false := by
  have h := checkKeywords_keyset ["a".data, "b".data, "a".data] "B".data
  refine ⟨?_, ?_⟩
  · rw [h.1]
    decide
  · rw [h.2 "a".data (by decide)]
    decide

/-- C10: an empty-string keyword is reported found for every input text, hence
contributes at least one successful match per successfully processed image, so
a run collects at most as many results as it tallies successful matches. -/
theorem emptyKeyword_always_found (kws : List Str) (h : [] ∈ kws) :
    (∀ T, mapGet (checkKeywords kws T) [] = some true)
      ∧ (∀ T, 1 ≤ foundCount (checkKeywords kws T))
      ∧ ∀ (recognize : Str → Except Str Str) (files : List Str),
          (processImages kws recognize (Except.ok files)).results.length
            ≤ (processImages kws recognize (Except.ok files)).totalSuccessfulMatches := by
  have hfound : ∀ T : Str, mapGet (checkKeywords kws T) [] = some true := by
    intro T
    rw [mapGet_checkKeywords kws T [] h]
    simp [toLowerStr, includes_nil_right]
  have hpos : ∀ T : Str, 1 ≤ foundCount (checkKeywords kws T) := fun T =>
    foundCount_pos_of_mapGet_true (checkKeywords kws T) [] (hfound T)
  refine ⟨hfound, hpos, ?_⟩
  intro recognize files
  by_cases h0 : (files.filter (fun f => isSupportedImage f)).length = 0
  · simp [processImages, h0]
  · simp only [processImages, if_neg h0]
    rw [runLoop, foldl_stepFile_results, foldl_stepFile_matches]
    simp only [List.nil_append, Nat.zero_add]
    set l := (files.filter (fun f => isSupportedImage f)).filterMap
      (perFileResult kws recognize) with hl
    have hlen : l.length = (l.map (fun r => foundCount r.keywordStatus)).length :=
      (List.length_map l _).symm
    rw [hlen]
    apply length_le_sum_of_one_le
    intro x hx
    rcases List.mem_map.mp hx with ⟨r, hr, hxr⟩
    rcases List.mem_filterMap.mp hr with ⟨file, -, hfile⟩
    rcases perFileResult_keywordStatus kws recognize file r hfile with ⟨text, htext⟩
    rw [← hxr, htext]
    exact hpos text

theorem emptyKeyword_always_found_witness :
    mapGet (checkKeywords [[], "x".data] "abc".data) [] = some true :=
  (emptyKeyword_always_found [[], "x".data] (by decide)).1 "abc".data

/-- C1: per run, a file on which the OCR adapter fails contributes its name
and error message to the log and no ImageResult, processing continues (the
results are exactly the per-file successes, in order), the number of results
is at most the number of qualifying image files, and no per-file failure turns
into a fatal error. -/
theorem processImages_partial_failure (kws : List Str) (recognize : Str → Except Str Str)
    (files : List Str) :
    (processImages kws recognize (Except.ok files)).results
        = (files.filter (fun f => isSupportedImage f)).filterMap (perFileResult kws recognize)
      ∧ (∀ f e, f ∈ files.filter (fun f => isSupportedImage f) →
          recognize f = Except.error e →
          LogEntry.errorProcessing f e ∈ (processImages kws recognize (Except.ok files)).log)
      ∧ (processImages kws recognize (Except.ok files)).results.length
          ≤ (files.filter (fun f => isSupportedImage f)).length
      ∧ (processImages kws recognize (Except.ok files)).fatalError = none := by
  by_cases h0 : (files.filter (fun f => isSupportedImage f)).length = 0
  · have hnil : files.filter (fun f => isSupportedImage f) = [] :=
      List.length_eq_zero.mp h0
    simp [processImages, h0, hnil]
  · have hres : (processImages kws recognize (Except.ok files)).results
        = (files.filter (fun f => isSupportedImage f)).filterMap
            (perFileResult kws recognize) := by
      simp only [processImages, if_neg h0]
      rw [runLoop, foldl_stepFile_results]
      simp
    refine ⟨hres, ?_, ?_, ?_⟩
    · intro f e hf hrec
      simp only [processImages, if_neg h0]
      rw [runLoop, foldl_stepFile_log]
      have hmem : LogEntry.errorProcessing f e
          ∈ (files.filter (fun f => isSupportedImage f)).map (perFileLog kws recognize) :=
        List.mem_map.mpr ⟨f, hf, by simp [perFileLog, hrec]⟩
      simp [hmem]
    · rw [hres]
      exact List.length_filterMap_le _ _
    · simp only [processImages, if_neg h0]

theorem processImages_partial_failure_witness :
    (processImages ["k".data]
        (fun f => if f = "a.jpg".data then Except.ok "ok k".data else Except.error "boom".data)
        (Except.ok ["a.jpg".data, "b.png".data])).results
      = [⟨"a.jpg".data, [("k".data, true)]⟩]
    ∧ LogEntry.errorProcessing "b.png".data "boom".data
        ∈ (processImages ["k".data]
            (fun f => if f = "a.jpg".data then Except.ok "ok k".data else Except.error "boom".data)
            (Except.ok ["a.jpg".data, "b.png".data])).log := by
  have h := processImages_partial_failure ["k".data]
    (fun f => if f = "a.jpg".data then Except.ok "ok k".data else Except.error "boom".data)
    ["a.jpg".data, "b.png".data]
  refine ⟨?_, h.2.1 "b.png".data "boom".data (by decide) (by rw [if_neg (by decide)])⟩
  rw [h.1]
  decide

/-- C3: after the loop, totalPossibleChecks is the attempted qualifying-image
count (successes and failures alike) times the keyword count, and the average
match percentage is 100 · totalSuccessfulMatches / totalPossibleChecks, with 0
when totalPossibleChecks is 0. -/
theorem processImages_summary (kws : List Str) (recognize : Str → Except Str Str)
    (files : List Str) (h0 : (files.filter (fun f => isSupportedImage f)).length ≠ 0) :
    (processImages kws recognize (Except.ok files)).totalPossibleChecks
        = (files.filter (fun f => isSupportedImage f)).length * kws.length
      ∧ (processImages kws recognize (Except.ok files)).averageMatchPercentage
          = if (processImages kws recognize (Except.ok files)).totalPossibleChecks = 0 then 0
            else 100 * ((processImages kws recognize
                (Except.ok files)).totalSuccessfulMatches : ℚ)
              / ((processImages kws recognize (Except.ok files)).totalPossibleChecks : ℚ) := by
  simp only [processImages, if_neg h0]
  refine ⟨trivial, ?_⟩
  by_cases hz : (files.filter (fun f => isSupportedImage f)).length * kws.length = 0
  · rw [if_pos hz, if_neg (by omega)]
  · rw [if_neg hz, if_pos (by omega), div_mul_eq_mul_div, mul_comm]

theorem processImages_summary_witness :
    (processImages ["k".data] (fun _ => Except.error "e".data)
        (Except.ok ["a.jpg".data])).totalPossibleChecks = 1
      ∧ (processImages ["k".data] (fun _ => Except.error "e".data)
        (Except.ok ["a.jpg".data])).averageMatchPercentage = 0 := by
  have h := processImages_summary ["k".data] (fun _ => Except.error "e".data)
    ["a.jpg".data] (by decide)
  refine ⟨?_, ?_⟩
  · rw [h.1]
    decide
  · rw [h.2]
    norm_num
    decide

/-- C7: when the directory listing yields zero qualifying image files, the run
logs a message and terminates with no output file written and no fatal
error. -/
theorem processImages_noImages (kws : List Str) (recognize : Str → Except Str Str)
    (files : List Str) (h0 : files.filter (fun f => isSupportedImage f) = []) :
    (processImages kws recognize (Except.ok files)).writtenCsv = none
      ∧ LogEntry.noImages ∈ (processImages kws recognize (Except.ok files)).log
      ∧ (processImages kws recognize (Except.ok files)).fatalError = none := by
  simp [processImages, h0]

theorem count_comma_statusText (b : Bool) : (statusText b).count ',' = 0 := by
  cases b <;> decide

theorem statusText_ne_nil (b : Bool) : statusText b ≠ [] := by
  cases b <;> decide

theorem statusText_getLast (b : Bool) : (statusText b).getLast? = some 'd' := by
  cases b <;> decide

theorem newline_notMem_statusText (b : Bool) : '\n' ∉ statusText b := by
  cases b <;> decide

theorem count_comma_csvRow_foldl :
    ∀ (kws : List Str) (r : ImageResult) (acc : Str),
      (kws.foldl (fun row keyword =>
          row ++ [','] ++ statusText ((mapGet r.keywordStatus keyword).getD false)) acc).count ','
        = acc.count ',' + kws.length
  | [], _, acc => by simp
  | k :: ks, r, acc => by
    rw [List.foldl_cons, count_comma_csvRow_foldl ks r]
    simp only [List.count_append, count_comma_statusText, List.count_singleton_self,
      List.length_cons]
    omega

theorem csvRow_count_comma (kws : List Str) (r : ImageResult) :
    (csvRow kws r).count ',' = r.fileName.count ',' + kws.length :=
  count_comma_csvRow_foldl kws r r.fileName

theorem newline_notMem_csvRow_foldl :
    ∀ (kws : List Str) (r : ImageResult) (acc : Str), '\n' ∉ acc →
      '\n' ∉ kws.foldl (fun row keyword =>
          row ++ [','] ++ statusText ((mapGet r.keywordStatus keyword).getD false)) acc
  | [], _, _, h => by simpa using h
  | k :: ks, r, acc, h => by
    rw [List.foldl_cons]
    apply newline_notMem_csvRow_foldl ks r
    intro hmem
    rcases List.mem_append.mp hmem with h1 | h1
    · rcases List.mem_append.mp h1 with h2 | h2
      · exact h h2
      · simp at h2
    · exact newline_notMem_statusText _ h1

theorem newline_notMem_csvRow (kws : List Str) (r : ImageResult)
    (h : '\n' ∉ r.fileName) : '\n' ∉ csvRow kws r :=
  newline_notMem_csvRow_foldl kws r r.fileName h

theorem csvRow_foldl_getLast :
    ∀ (kws : List Str) (r : ImageResult) (acc : Str), kws ≠ [] →
      (kws.foldl (fun row keyword =>
          row ++ [','] ++ statusText ((mapGet r.keywordStatus keyword).getD false)) acc).getLast?
        = some 'd'
  | [], _, _, h => absurd rfl h
  | k :: ks, r, acc, _ => by
    rw [List.foldl_cons]
    by_cases hks : ks = []
    · subst hks
      rw [List.foldl_nil,
        List.getLast?_append_of_ne_nil _ (statusText_ne_nil _)]
      exact statusText_getLast _
    · exact csvRow_foldl_getLast ks r _ hks

theorem csvRow_getLast (kws : List Str) (r : ImageResult) (h : kws ≠ []) :
    (csvRow kws r).getLast? = some 'd' :=
  csvRow_foldl_getLast kws r r.fileName h

theorem csvRow_ne_nil (kws : List Str) (r : ImageResult) (h : kws ≠ []) :
    csvRow kws r ≠ [] := by
  intro hnil
  have hlast := csvRow_getLast kws r h
  rw [hnil] at hlast
  simp at hlast

theorem joinSep_cons_of_ne_nil (sep x : Str) (ys : List Str) (h : ys ≠ []) :
    joinSep sep (x :: ys) = x ++ sep ++ joinSep sep ys := by
  cases ys with
  | nil => exact absurd rfl h
  | cons y ys => rfl

theorem notMem_joinSep (c : Char) (sep : Str) (hc : c ∉ sep) :
    ∀ ps : List Str, (∀ p ∈ ps, c ∉ p) → c ∉ joinSep sep ps
  | [], _ => by simp [joinSep]
  | [x], hp => by simpa [joinSep] using hp x (by simp)
  | x :: y :: xs, hp => by
    rw [joinSep]
    intro hmem
    rcases List.mem_append.mp hmem with h1 | h1
    · rcases List.mem_append.mp h1 with h2 | h2
      · exact hp x (by simp) h2
      · exact hc h2
    · exact notMem_joinSep c sep hc (y :: xs)
        (fun p hp2 => hp p (List.mem_cons_of_mem x hp2)) h1

theorem count_comma_joinSep :
    ∀ ps : List Str, (∀ p ∈ ps, ',' ∉ p) → ps ≠ [] →
      (joinSep [','] ps).count ',' = ps.length - 1
  | [], _, h => absurd rfl h
  | [x], hp, _ => by
    simp [joinSep, List.count_eq_zero_of_not_mem (hp x (by simp))]
  | x :: y :: xs, hp, _ => by
    rw [joinSep, List.count_append, List.count_append,
      List.count_eq_zero_of_not_mem (hp x (by simp)),
      count_comma_joinSep (y :: xs) (fun p h2 => hp p (List.mem_cons_of_mem x h2)) (by simp)]
    simp only [List.count_singleton_self, List.length_cons]
    omega

theorem fieldCount_headerLine (kws : List Str) (hk : ∀ k ∈ kws, ',' ∉ k) (h : kws ≠ []) :
    fieldCount (headerLine kws) = 1 + kws.length := by
  rw [fieldCount, headerLine, List.count_append, List.count_append,
    List.count_eq_zero_of_not_mem (by decide : ',' ∉ "Case".data),
    count_comma_joinSep kws hk h]
  have hlen : 0 < kws.length := List.length_pos.mpr h
  simp only [List.count_singleton_self]
  omega

theorem splitOnChar_ne_nil (c : Char) : ∀ s : Str, splitOnChar c s ≠ []
  | [] => by simp [splitOnChar]
  | d :: s => by
    rw [splitOnChar]
    by_cases h : d = c
    · rw [if_pos h]
      exact List.cons_ne_nil _ _
    · rw [if_neg h]
      cases hsp : splitOnChar c s with
      | nil => exact List.cons_ne_nil _ _
      | cons t ts => exact List.cons_ne_nil _ _

theorem splitOnChar_not_mem (c : Char) : ∀ s : Str, c ∉ s → splitOnChar c s = [s]
  | [], _ => rfl
  | d :: s, h => by
    rw [splitOnChar, if_neg (fun hh => by subst hh; exact h (List.mem_cons_self _ _)),
      splitOnChar_not_mem c s (fun hh => h (List.mem_cons_of_mem d hh))]

theorem splitOnChar_append_cons (c : Char) :
    ∀ (pre rest : Str), c ∉ pre →
      splitOnChar c (pre ++ c :: rest) = pre :: splitOnChar c rest
  | [], rest, _ => by
    simp only [List.nil_append]
    rw [splitOnChar, if_pos rfl]
  | d :: pre, rest, h => by
    rw [List.cons_append, splitOnChar,
      if_neg (fun hh => by subst hh; exact h (List.mem_cons_self _ _)),
      splitOnChar_append_cons c pre rest (fun hh => h (List.mem_cons_of_mem d hh))]

theorem splitOnChar_joinSep (c : Char) :
    ∀ ps : List Str, (∀ p ∈ ps, c ∉ p) → ps ≠ [] →
      splitOnChar c (joinSep [c] ps) = ps
  | [], _, h => absurd rfl h
  | [x], hp, _ => splitOnChar_not_mem c x (hp x (by simp))
  | x :: y :: xs, hp, _ => by
    rw [joinSep]
    have hform : x ++ [c] ++ joinSep [c] (y :: xs) = x ++ c :: joinSep [c] (y :: xs) := by
      simp
    rw [hform, splitOnChar_append_cons c x _ (hp x (by simp)),
      splitOnChar_joinSep c (y :: xs) (fun p h2 => hp p (List.mem_cons_of_mem x h2)) (by simp)]

theorem getLast?_ne_some_nil (l : List Str) (h : ∀ x ∈ l, x ≠ []) :
    l.getLast? ≠ some [] := by
  intro hsome
  exact h [] (List.mem_of_getLast?_eq_some hsome) rfl

theorem linesOf_single_line (s : Str) (h : '\n' ∉ s) : linesOf (s ++ ['\n']) = [s] := by
  rw [linesOf]
  have hform : s ++ ['\n'] = s ++ '\n' :: ([] : Str) := rfl
  rw [hform, splitOnChar_append_cons '\n' s [] h]
  simp [splitOnChar]

theorem newline_notMem_headerLine (kws : List Str) (hkn : ∀ k ∈ kws, '\n' ∉ k) :
    '\n' ∉ headerLine kws := by
  rw [headerLine]
  intro hmem
  rcases List.mem_append.mp hmem with h1 | h1
  · rcases List.mem_append.mp h1 with h2 | h2
    · revert h2
      decide
    · revert h2
      decide
  · exact notMem_joinSep '\n' [','] (by decide) kws hkn h1

theorem linesOf_convertToCsv (kws : List Str) (results : List ImageResult)
    (hkn : ∀ k ∈ kws, '\n' ∉ k) (hrn : ∀ r ∈ results, '\n' ∉ r.fileName)
    (hkne : kws ≠ []) :
    linesOf (convertToCsv kws results) = headerLine kws :: results.map (csvRow kws) := by
  have hheader := newline_notMem_headerLine kws hkn
  cases results with
  | nil =>
    rw [convertToCsv]
    simp only [List.map_nil, joinSep, List.append_nil]
    exact linesOf_single_line _ hheader
  | cons r rs =>
    rw [convertToCsv]
    have hjoin : headerLine kws ++ ['\n'] ++ joinSep ['\n'] ((r :: rs).map (csvRow kws))
        = joinSep ['\n'] (headerLine kws :: (r :: rs).map (csvRow kws)) :=
      (joinSep_cons_of_ne_nil ['\n'] (headerLine kws) _ (by simp)).symm
    rw [hjoin]
    have hpieces : ∀ p ∈ headerLine kws :: (r :: rs).map (csvRow kws), '\n' ∉ p := by
      intro p hp
      rcases List.mem_cons.mp hp with h1 | h1
      · rw [h1]
        exact hheader
      · rcases List.mem_map.mp h1 with ⟨r', hr', hpr⟩
        rw [← hpr]
        exact newline_notMem_csvRow kws r' (hrn r' hr')
    have hnn : ∀ x ∈ headerLine kws :: (r :: rs).map (csvRow kws), x ≠ [] := by
      intro x hx
      rcases List.mem_cons.mp hx with h1 | h1
      · intro hnil
        have : ',' ∈ headerLine kws := by
          rw [headerLine]
          simp
        rw [← h1, hnil] at this
        cases this
      · rcases List.mem_map.mp h1 with ⟨r', hr', hpr⟩
        rw [← hpr]
        exact csvRow_ne_nil kws r' hkne
    rw [linesOf, splitOnChar_joinSep '\n' _ hpieces (by simp),
      if_neg (by simpa using getLast?_ne_some_nil _ hnn)]

/-- C4 (amended): under the no-comma/no-newline precondition, every data row
has exactly 1 + |keywords| comma-separated fields, and when the keyword list
is nonempty every line of the document, the header line included, has the
header's field count.  (With an empty keyword list the header `Case,` has two
fields while every data row has one, so the original every-row claim fails
there.) -/
theorem convertToCsv_columns (kws : List Str) (results : List ImageResult)
    (hk : ∀ k ∈ kws, ',' ∉ k ∧ '\n' ∉ k)
    (hr : ∀ r ∈ results, ',' ∉ r.fileName ∧ '\n' ∉ r.fileName) :
    (∀ r ∈ results, fieldCount (csvRow kws r) = 1 + kws.length)
      ∧ (kws ≠ [] →
          ∀ line ∈ linesOf (convertToCsv kws results),
            fieldCount line = fieldCount (headerLine kws)) := by
  have hrow : ∀ r ∈ results, fieldCount (csvRow kws r) = 1 + kws.length := by
    intro r hrr
    rw [fieldCount, csvRow_count_comma,
      List.count_eq_zero_of_not_mem (hr r hrr).1]
    omega
  refine ⟨hrow, ?_⟩
  intro hkne line hline
  rw [linesOf_convertToCsv kws results (fun k hkk => (hk k hkk).2)
    (fun r hrr => (hr r hrr).2) hkne] at hline
  have hhead := fieldCount_headerLine kws (fun k hkk => (hk k hkk).1) hkne
  rcases List.mem_cons.mp hline with h1 | h1
  · rw [h1]
  · rcases List.mem_map.mp h1 with ⟨r', hr', hpr⟩
    rw [← hpr, hrow r' hr', hhead]

theorem convertToCsv_columns_witness :
    fieldCount (csvRow ["k".data] ⟨"img".data, []⟩) = 2
      ∧ fieldCount (headerLine ["k".data]) = 2 := by
  have h := convertToCsv_columns ["k".data] [⟨"img".data, []⟩] (by decide) (by decide)
  constructor
  · rw [h.1 ⟨"img".data, []⟩ (by decide)]
    rfl
  · decide

theorem convertToCsv_columns_cex :
    linesOf (convertToCsv [] [⟨"img".data, []⟩]) = ["Case,".data, "img".data]
      ∧ fieldCount "Case,".data = 2 ∧ fieldCount "img".data = 1 := by
  decide

/-- C5: serializing an empty result list yields exactly the header line
`Case,<joined keywords>` terminated by its newline, and (when no keyword
contains a newline) the document therefore has exactly that one line. -/
theorem convertToCsv_empty_results (kws : List Str) :
    convertToCsv kws [] = headerLine kws ++ ['\n']
      ∧ ((∀ k ∈ kws, '\n' ∉ k) → linesOf (convertToCsv kws []) = [headerLine kws]) := by
  have hdoc : convertToCsv kws [] = headerLine kws ++ ['\n'] := by
    rw [convertToCsv]
    simp [joinSep]
  refine ⟨hdoc, ?_⟩
  intro hkn
  rw [hdoc]
  exact linesOf_single_line _ (newline_notMem_headerLine kws hkn)

theorem convertToCsv_empty_results_witness :
    linesOf (convertToCsv ["k".data] []) = [headerLine ["k".data]] :=
  (convertToCsv_empty_results ["k".data]).2 (by decide)

/-- C6 (amended): with an empty keyword list the header line is exactly
`Case,` — the word Case followed by the trailing comma that the template
literal always inserts — not the bare `Case`. -/
theorem convertToCsv_emptyKeywords_header (results : List ImageResult) :
    firstLine (convertToCsv [] results) = "Case,".data := by
  rw [convertToCsv]
  have hform : headerLine [] ++ ['\n'] ++ joinSep ['\n'] (results.map (csvRow []))
      = "Case,".data ++ '\n' :: joinSep ['\n'] (results.map (csvRow [])) := by
    rw [headerLine]
    simp [joinSep]
  rw [hform, firstLine, List.takeWhile_append_of_pos (by decide),
    List.takeWhile_cons_of_neg (by decide)]
  simp

theorem convertToCsv_emptyKeywords_header_cex :
    firstLine (convertToCsv [] []) = "Case,".data
      ∧ "Case,".data ≠ "Case".data := by
  decide

theorem joinSep_concat_ne_nil (sep : Str) :
    ∀ (ps : List Str) (x : Str), x ≠ [] → joinSep sep (ps ++ [x]) ≠ []
  | [], x, hx => by simpa [joinSep] using hx
  | p :: ps, x, hx => by
    rw [List.cons_append, joinSep_cons_of_ne_nil _ _ _ (by simp)]
    intro hnil
    rcases List.append_eq_nil.mp hnil with ⟨-, h2⟩
    exact joinSep_concat_ne_nil sep ps x hx h2

theorem getLast?_joinSep_concat (sep : Str) :
    ∀ (ps : List Str) (x : Str), x ≠ [] →
      (joinSep sep (ps ++ [x])).getLast? = x.getLast?
  | [], x, _ => by simp [joinSep]
  | p :: ps, x, hx => by
    rw [List.cons_append, joinSep_cons_of_ne_nil _ _ _ (by simp),
      List.getLast?_append_of_ne_nil _ (joinSep_concat_ne_nil sep ps x hx),
      getLast?_joinSep_concat sep ps x hx]

/-- C9 (amended): the serialized CSV ends with a newline iff the result list
is empty, provided that (when the keyword list is empty) every file name is
nonempty and does not itself end with a newline; with a nonempty keyword list
every data row ends in `found`/`not found`, so no side condition is needed. -/
theorem convertToCsv_trailing_newline (kws : List Str) (results : List ImageResult)
    (h : kws ≠ [] ∨ ∀ r ∈ results, r.fileName ≠ [] ∧ r.fileName.getLast? ≠ some '\n') :
    ((convertToCsv kws results).getLast? = some '\n' ↔ results = []) := by
  rcases List.eq_nil_or_concat results with hres | ⟨rs, r, hres⟩
  · subst hres
    rw [convertToCsv]
    simp [joinSep, List.getLast?_concat]
  · rw [List.concat_eq_append] at hres
    subst hres
    have hrow : (csvRow kws r).getLast? ≠ some '\n' ∧ csvRow kws r ≠ [] := by
      rcases h with hkne | hfn
      · refine ⟨?_, csvRow_ne_nil kws r hkne⟩
        rw [csvRow_getLast kws r hkne]
        decide
      · have hf := hfn r (by simp)
        cases kws with
        | nil =>
          constructor
          · simp only [csvRow, List.foldl_nil]
            exact hf.2
          · simp only [csvRow, List.foldl_nil]
            exact hf.1
        | cons k ks =>
          refine ⟨?_, csvRow_ne_nil (k :: ks) r (by simp)⟩
          rw [csvRow_getLast (k :: ks) r (by simp)]
          decide
    have hmap : (rs ++ [r]).map (csvRow kws) = rs.map (csvRow kws) ++ [csvRow kws r] := by
      simp
    have hlast : (convertToCsv kws (rs ++ [r])).getLast? = (csvRow kws r).getLast? := by
      rw [convertToCsv, hmap,
        List.getLast?_append_of_ne_nil _ (joinSep_concat_ne_nil _ _ _ hrow.2)]
      exact getLast?_joinSep_concat _ _ _ hrow.2
    rw [hlast]
    constructor
    · intro hx
      exact absurd hx hrow.1
    · intro hx
      simp at hx

theorem convertToCsv_trailing_newline_witness :
    (convertToCsv ["k".data] []).getLast? = some '\n' :=
  (convertToCsv_trailing_newline ["k".data] [] (Or.inl (by decide))).mpr rfl

theorem convertToCsv_trailing_newline_cex :
    (convertToCsv [] [⟨['a', '\n'], []⟩]).getLast? = some '\n'
      ∧ ([⟨['a', '\n'], []⟩] : List ImageResult) ≠ [] := by
  decide

theorem processImages_noImages_witness :
    (processImages [] (fun _ => Except.error [])
        (Except.ok ["readme.txt".data])).writtenCsv = none
      ∧ LogEntry.noImages ∈ (processImages [] (fun _ => Except.error [])
          (Except.ok ["readme.txt".data])).log
      ∧ (processImages [] (fun _ => Except.error [])
          (Except.ok ["readme.txt".data])).fatalError = none :=
  processImages_noImages [] (fun _ => Except.error []) ["readme.txt".data] (by decide)
